import Mathlib

/-!
# Verification of the kinetra pressure-insole acquisition/transport pipeline

Shallow embedding of the firmware encoder (`pressure_sensor.ino`: scanning,
calibration, quantization, frame packing) and the host-side BLE decoder
(`services/ble.js`: `MagicFrameAssembler`, `decodePayloadU16`,
`decodeFrameU16`, `rescaleMatrix`), together with proofs of the spec's
testable properties.

Modelling conventions:
* JS `Uint8Array` byte buffers are `List ℕ` whose elements are bytes
  (`< 256`); `lo | (hi << 8)` on bytes equals `lo + 256 * hi`.
* C `float` / JS number arithmetic is modelled exactly over `ℚ`;
  `lroundf` is round-half-away-from-zero.
* C fixed-size 2-D arrays indexed by `r < numRows`, `c < numCols` are
  total functions `ℕ → ℕ → ℚ`; loops touch only in-range indices.
-/

/-! ## Host-side frame reassembly (`MagicFrameAssembler` in `services/ble.js`) -/

/-- Index of the first position `i` with `l[i] = lo` and `l[i+1] = hi`
(the inner scan loop of `MagicFrameAssembler.addChunk`). -/
def findMagic (lo hi : ℕ) : List ℕ → Option ℕ
  | a :: b :: rest =>
      if a = lo ∧ b = hi then some 0
      else (findMagic lo hi (b :: rest)).map (· + 1)
  | _ => none

/-- `buffer = buffer.slice(buffer.length - 1)` guarded by `length > 1`:
keep only the final byte (a possible split magic prefix). -/
def pruneTail (buf : List ℕ) : List ℕ :=
  if 1 < buf.length then buf.drop (buf.length - 1) else buf

/-- The `while (true)` frame-extraction loop of `addChunk`, with explicit
fuel for structural recursion.  Each genuine iteration consumes at least
`frameLen ≥ 1` buffered bytes, so `buf.length + 1` fuel is always enough
(`drainFuel_congr`).  The JS loop never terminates when `frameLen = 0`
and a magic match exists; the model returns the buffer unchanged there
(no claim touches that degenerate configuration). -/
def drainFuel (frameLen lo hi : ℕ) : ℕ → List ℕ → List (List ℕ) × List ℕ
  | 0, buf => ([], buf)
  | fuel + 1, buf =>
    if frameLen = 0 then ([], buf)
    else
      match findMagic lo hi buf with
      | none => ([], pruneTail buf)
      | some s =>
          if (buf.drop s).length < frameLen then ([], buf.drop s)
          else
            match drainFuel frameLen lo hi fuel ((buf.drop s).drop frameLen) with
            | (outs, fin) => ((buf.drop s).take frameLen :: outs, fin)

/-- The frame-extraction loop of `addChunk` run to completion:
returns the emitted frames and the retained buffer. -/
def drainLoop (frameLen lo hi : ℕ) (buf : List ℕ) : List (List ℕ) × List ℕ :=
  drainFuel frameLen lo hi (buf.length + 1) buf

/-- State of a `MagicFrameAssembler` instance. -/
structure MagicFrameAssembler where
  frameLen : ℕ
  magicLo : ℕ
  magicHi : ℕ
  buffer : List ℕ
  deriving Repr, DecidableEq

/-- `new MagicFrameAssembler(frameLen, magic = 0xbeef)`:
`magicLo = magic & 0xff`, `magicHi = (magic >> 8) & 0xff`, empty buffer. -/
def mkMagicFrameAssembler (frameLen : ℕ) (magic : ℕ := 0xbeef) : MagicFrameAssembler :=
  { frameLen := frameLen
    magicLo := magic % 256
    magicHi := magic / 256 % 256
    buffer := [] }

/-- `MagicFrameAssembler.addChunk(data)`: append the chunk to the buffer
and drain all complete frames, returning the updated assembler and the
emitted frames. -/
def MagicFrameAssembler.addChunk (st : MagicFrameAssembler) (chunk : List ℕ) :
    MagicFrameAssembler × List (List ℕ) :=
  if chunk.isEmpty then (st, [])
  else
    ({ st with
        buffer := (drainLoop st.frameLen st.magicLo st.magicHi (st.buffer ++ chunk)).2 },
      (drainLoop st.frameLen st.magicLo st.magicHi (st.buffer ++ chunk)).1)

/-- Feed a sequence of chunks in order, concatenating the emitted frames. -/
def MagicFrameAssembler.addChunks (st : MagicFrameAssembler) :
    List (List ℕ) → MagicFrameAssembler × List (List ℕ)
  | [] => (st, [])
  | c :: cs =>
      (((st.addChunk c).1.addChunks cs).1,
        (st.addChunk c).2 ++ ((st.addChunk c).1.addChunks cs).2)

/-! ## Quantization codec (firmware `quantize_u16` / `dequantize_u16`) -/

/-- `lroundf`: round to nearest, halves away from zero. -/
def lroundQ (t : ℚ) : ℤ := if 0 ≤ t then ⌊t + 1 / 2⌋ else -⌊1 / 2 - t⌋

/-- Firmware `quantize_u16(float x, float minV, float maxV)`. -/
def quantize_u16 (x minV maxV : ℚ) : ℕ :=
  let x1 := if x < minV then minV else x
  let x2 := if x1 > maxV then maxV else x1
  let range := maxV - minV
  if range ≤ 0 then 0
  else
    let norm := (x2 - minV) / range
    let q := (lroundQ (norm * 65535)).toNat
    if q > 65535 then 65535 else q

/-- Firmware `dequantize_u16` = JS `dequantizeU16`:
`minV + (q / 65535) * (maxV - minV)`. -/
def dequantize_u16 (q : ℕ) (minV maxV : ℚ) : ℚ :=
  minV + ((q : ℚ) / 65535) * (maxV - minV)

/-! ## Firmware constants and grid layout (`pressure_sensor.ino`) -/

def numRows : ℕ := 12
def numCols : ℕ := 8

/-- `MAX_RESISTANCE`: upper clip bound and "no/low pressure" sentinel. -/
def MAX_RESISTANCE : ℚ := 6000
/-- `MIN_RESISTANCE`: lower clip bound. -/
def MIN_RESISTANCE : ℚ := -1

/-- `OMMITTED_NODES`: grid coordinates with no physical sensor. -/
def OMMITTED_NODES : List (ℕ × ℕ) :=
  [(0, 0), (0, 1), (0, 7), (1, 0),
   (6, 7), (7, 7),
   (8, 6), (8, 7), (9, 6), (9, 7), (10, 6), (10, 7), (11, 6), (11, 7)]

/-- `isOmittedNode(int r, int c)`. -/
def isOmittedNode (r c : ℕ) : Bool :=
  OMMITTED_NODES.any fun p => p.1 == r && p.2 == c

def kMagic : ℕ := 0xBEEF
def kHeaderBytes : ℕ := 4
def kSampleCount : ℕ := numRows * numCols
/-- `kPayloadBytes = kHeaderBytes + kSampleCount * 2`. -/
def kPayloadBytes : ℕ := kHeaderBytes + kSampleCount * 2

/-- The per-sample body of the `packMatrixToPayload` loop: clip the stored
resistance to `[minV, maxV]` (in the loop's order: upper bound first),
quantize, and emit the two little-endian bytes. -/
def packSampleBytes (x minV maxV : ℚ) : List ℕ :=
  let x1 := if x > maxV then maxV else x
  let x2 := if x1 < minV then minV else x1
  let q := quantize_u16 x2 minV maxV
  [q % 256, q / 256 % 256]

/-- `packMatrixToPayload(float minV, float maxV, uint16_t frame_id)`:
magic and `frame_id` as little-endian u16, then the row-major quantized
samples, two bytes each.  `nodeResistance` is the firmware's grid. -/
def packMatrixToPayload (nodeResistance : ℕ → ℕ → ℚ) (minV maxV : ℚ)
    (frame_id : ℕ) : List ℕ :=
  [kMagic % 256, kMagic / 256 % 256, frame_id % 256, frame_id / 256 % 256]
    ++ (List.range numRows).flatMap fun r =>
        (List.range numCols).flatMap fun c =>
          packSampleBytes (nodeResistance r c) minV maxV

/-- The final stage of `scanMatrix()`: force every omitted node to `-1`
("no data"), overriding the electrical measurement.  The electrical scan
itself reads hardware ADC lines, so the raw grid is an arbitrary input. -/
def forceOmittedNodes (m : ℕ → ℕ → ℚ) : ℕ → ℕ → ℚ :=
  fun r c => if isOmittedNode r c then -1 else m r c

/-- `applyMultipliersAndClip()`: in the frozen state, for non-omitted
nodes normalize the raw reading (non-positive becomes the sentinel), clip
to `MAX_RESISTANCE`, scale by the node multiplier, and clip to
`[MIN_RESISTANCE, MAX_RESISTANCE]`; omitted nodes are forced to `-1`.
Before freezing the function returns without touching the grid. -/
def applyMultipliersAndClip (restingFrozen : Bool) (nodeMultiplier : ℕ → ℕ → ℚ)
    (m : ℕ → ℕ → ℚ) : ℕ → ℕ → ℚ :=
  fun r c =>
    if !restingFrozen then m r c
    else if isOmittedNode r c then -1
    else
      let v0 := m r c
      let v1 := if v0 ≤ 0 then MAX_RESISTANCE else v0
      let v2 := if v1 > MAX_RESISTANCE then MAX_RESISTANCE else v1
      let v3 := v2 * nodeMultiplier r c
      let v4 := if v3 > MAX_RESISTANCE then MAX_RESISTANCE else v3
      let v5 := if v4 < MIN_RESISTANCE then MIN_RESISTANCE else v4
      v5

/-! ## Calibration engine (the warm-up section of `loop()`) -/

/-- `kRestingHistorySize`: the calibration warm-up window `W`. -/
def kRestingHistorySize : ℕ := 100

/-- The normalization applied to a raw reading inside the warm-up loop:
`if (v <= 0) v = MAX_RESISTANCE; if (v > MAX_RESISTANCE) v = MAX_RESISTANCE`. -/
def normalizeReading (v : ℚ) : ℚ :=
  let v1 := if v ≤ 0 then MAX_RESISTANCE else v
  if v1 > MAX_RESISTANCE then MAX_RESISTANCE else v1

/-- Calibration state: the firmware globals `frameCount`, `restingFrozen`,
`restingSum`, `restingCount`, `restingState`, `nodeMultiplier`. -/
structure CalibState where
  frameCount : ℕ
  restingFrozen : Bool
  restingSum : ℕ → ℕ → ℚ
  restingCount : ℕ → ℕ → ℕ
  restingState : ℕ → ℕ → ℚ
  nodeMultiplier : ℕ → ℕ → ℚ

/-- The state established by `setup()`. -/
def initCalibState : CalibState :=
  { frameCount := 0
    restingFrozen := false
    restingSum := fun _ _ => 0
    restingCount := fun _ _ => 0
    restingState := fun _ _ => MAX_RESISTANCE
    nodeMultiplier := fun _ _ => 1 }

/-- Whether the warm-up loop accumulates node `(r, c)` this cycle:
non-omitted and the normalized reading is strictly below the sentinel. -/
def calibAccumulates (m : ℕ → ℕ → ℚ) (r c : ℕ) : Bool :=
  !isOmittedNode r c && decide (normalizeReading (m r c) < MAX_RESISTANCE)

/-- One warm-up accumulation pass over the grid plus `frameCount++`. -/
def calibAccumulate (st : CalibState) (m : ℕ → ℕ → ℚ) : CalibState :=
  { st with
    restingSum := fun r c =>
      if r < numRows ∧ c < numCols ∧ calibAccumulates m r c then
        st.restingSum r c + normalizeReading (m r c)
      else st.restingSum r c
    restingCount := fun r c =>
      if r < numRows ∧ c < numCols ∧ calibAccumulates m r c then
        st.restingCount r c + 1
      else st.restingCount r c
    frameCount := st.frameCount + 1 }

/-- The freeze pass run once `frameCount >= kRestingHistorySize`:
finalize `restingState` (mean of valid samples, falling back to the
node's latest normalized reading) and derive `nodeMultiplier`. -/
def calibFreeze (st : CalibState) (m : ℕ → ℕ → ℚ) : CalibState :=
  let rs := fun r c =>
    if isOmittedNode r c then MAX_RESISTANCE
    else if 0 < st.restingCount r c then
      st.restingSum r c / (st.restingCount r c : ℚ)
    else normalizeReading (m r c)
  { st with
    restingFrozen := true
    restingState := fun r c =>
      if r < numRows ∧ c < numCols then rs r c else st.restingState r c
    nodeMultiplier := fun r c =>
      if r < numRows ∧ c < numCols then
        if isOmittedNode r c then 1
        else if 0 < rs r c then MAX_RESISTANCE / rs r c else 1
      else st.nodeMultiplier r c }

/-- The calibration section of one `loop()` iteration, applied to the
post-scan grid `m` (already omitted-forced).  While warming it
accumulates and possibly freezes; once frozen it leaves the state alone. -/
def calibStep (st : CalibState) (m : ℕ → ℕ → ℚ) : CalibState :=
  if st.restingFrozen then st
  else
    let st1 := calibAccumulate st m
    if kRestingHistorySize ≤ st1.frameCount then calibFreeze st1 m else st1

/-- Run `k` scan/calibration cycles with per-cycle raw grids `inputs`. -/
def runCalib (inputs : ℕ → ℕ → ℕ → ℚ) : ℕ → CalibState
  | 0 => initCalibState
  | k + 1 => calibStep (runCalib inputs k) (inputs k)

/-! ## Host-side decoding (`services/ble.js`) -/

/-- The rescale bounds of `rescaleMatrix`. -/
def inMin : ℚ := 700
def inMax : ℚ := 3700
def outMin : ℚ := 0
def outMax : ℚ := 100

/-- The per-value body of `rescaleMatrix`: non-positive values become the
`-1` "no sensor" marker; others are mapped affinely from
`[inMin, inMax]` to `[outMin, outMax]` and clamped. -/
def rescaleValue (value : ℚ) : ℚ :=
  if value ≤ 0 then -1
  else
    let scaled := (value - inMin) / (inMax - inMin) * (outMax - outMin) + outMin
    min outMax (max outMin scaled)

/-- `rescaleMatrix(matrix)`. -/
def rescaleMatrix (matrix : List (List ℚ)) : List (List ℚ) :=
  matrix.map fun row => row.map rescaleValue

/-- The dequantization loop of `decodePayloadU16`: each little-endian
byte pair `lo, hi` becomes `dequantize(lo | hi << 8)`. -/
def pairsToValues (minV maxV : ℚ) : List ℕ → List ℚ
  | lo :: hi :: rest =>
      dequantize_u16 (lo + 256 * hi) minV maxV :: pairsToValues minV maxV rest
  | _ => []

/-- `decodePayloadU16(payload, {minV, maxV})`: rejects odd-length input,
otherwise dequantizes the byte pairs. -/
def decodePayloadU16 (payload : List ℕ) (minV maxV : ℚ) : Except String (List ℚ) :=
  if payload.length % 2 ≠ 0 then
    Except.error "payload length must be even (uint16 packed)"
  else Except.ok (pairsToValues minV maxV payload)

/-- `decodeFrameU16(payload, {minV, maxV, rows = 12, cols = 8})`:
validate total length and magic, read `frameId`, dequantize the body,
reshape it row-major and rescale. -/
def decodeFrameU16 (payload : List ℕ) (minV maxV : ℚ)
    (rows : ℕ := 12) (cols : ℕ := 8) : Except String (ℕ × List (List ℚ)) :=
  let bytes := payload
  let expected := 4 + rows * cols * 2
  if bytes.length ≠ expected then Except.error "length mismatch"
  else
    let magic := bytes.getD 0 0 + 256 * bytes.getD 1 0
    if magic ≠ 0xbeef then Except.error "bad magic"
    else
      let frameId := bytes.getD 2 0 + 256 * bytes.getD 3 0
      match decodePayloadU16 (bytes.drop 4) minV maxV with
      | Except.error e => Except.error e
      | Except.ok values =>
          let matrix := (List.range rows).map fun r => (values.drop (r * cols)).take cols
          Except.ok (frameId, rescaleMatrix matrix)

/-- Entry `(r, c)` of the grid of a successful decode (`0` on error). -/
def decodedAt (res : Except String (ℕ × List (List ℚ))) (r c : ℕ) : ℚ :=
  match res with
  | Except.ok (_, mat) => (mat.getD r []).getD c 0
  | Except.error _ => 0

/-! ## Reassembler lemmas -/

theorem findMagic_nil (lo hi : ℕ) : findMagic lo hi [] = none := rfl

theorem findMagic_single (lo hi a : ℕ) : findMagic lo hi [a] = none := rfl

theorem findMagic_cons₂ (lo hi a b : ℕ) (rest : List ℕ) :
    findMagic lo hi (a :: b :: rest) =
      if a = lo ∧ b = hi then some 0
      else (findMagic lo hi (b :: rest)).map (· + 1) := rfl

/-- A successful match points at the magic byte pair. -/
theorem findMagic_some_shape {lo hi : ℕ} :
    ∀ {buf : List ℕ} {s : ℕ}, findMagic lo hi buf = some s →
      ∃ rest, buf.drop s = lo :: hi :: rest := by
  intro buf
  induction buf with
  | nil => intro s h; simp [findMagic] at h
  | cons a t ih =>
      intro s h
      match t with
      | [] => simp [findMagic] at h
      | b :: r =>
          rw [findMagic_cons₂] at h
          by_cases hab : a = lo ∧ b = hi
          · simp [hab] at h
            subst h
            exact ⟨r, by simp [hab.1, hab.2]⟩
          · simp [hab] at h
            obtain ⟨s', hs', rfl⟩ := h
            obtain ⟨rest, hrest⟩ := ih hs'
            exact ⟨rest, by simpa using hrest⟩

/-- A match survives appending bytes on the right, at the same position. -/
theorem findMagic_some_append {lo hi : ℕ} :
    ∀ {buf : List ℕ} {s : ℕ}, findMagic lo hi buf = some s →
      ∀ ext, findMagic lo hi (buf ++ ext) = some s := by
  intro buf
  induction buf with
  | nil => intro s h; simp [findMagic] at h
  | cons a t ih =>
      intro s h ext
      match t with
      | [] => simp [findMagic] at h
      | b :: r =>
          rw [findMagic_cons₂] at h
          by_cases hab : a = lo ∧ b = hi
          · simp [hab] at h
            subst h
            simp [findMagic_cons₂, hab]
          · simp [hab] at h
            obtain ⟨s', hs', rfl⟩ := h
            have := ih hs' ext
            simp only [List.cons_append] at *
            rw [findMagic_cons₂]
            simp [hab, this]

/-- Inversion for a failed scan on a two-byte head. -/
theorem findMagic_none_cons₂ {lo hi a b : ℕ} {rest : List ℕ}
    (h : findMagic lo hi (a :: b :: rest) = none) :
    ¬(a = lo ∧ b = hi) ∧ findMagic lo hi (b :: rest) = none := by
  rw [findMagic_cons₂] at h
  by_cases hab : a = lo ∧ b = hi
  · simp [hab] at h
  · simp [hab] at h
    exact ⟨hab, h⟩

/-- If no match starts inside the junk prefix `j` — not even one pairing
the last junk byte with the first byte of `rest` — then scanning
`j ++ rest` is scanning `rest`, shifted. -/
theorem findMagic_append_junk {lo hi : ℕ} :
    ∀ (j rest : List ℕ), findMagic lo hi (j ++ rest.take 1) = none →
      findMagic lo hi (j ++ rest) = (findMagic lo hi rest).map (· + j.length) := by
  intro j
  induction j with
  | nil =>
      intro rest _
      cases h : findMagic lo hi rest <;> simp [h]
  | cons a j2 ih =>
      intro rest hnone
      match j2 with
      | [] =>
          match rest with
          | [] => simp [findMagic]
          | b :: rest2 =>
              simp only [List.nil_append, List.take, List.cons_append] at hnone ⊢
              have hinv := findMagic_none_cons₂ (by simpa using hnone)
              rw [findMagic_cons₂]
              simp only [hinv.1, if_false]
              cases h : findMagic lo hi (b :: rest2) <;> simp [h]
      | c :: j3 =>
          simp only [List.cons_append] at hnone ⊢
          have hinv := findMagic_none_cons₂ (by simpa using hnone)
          rw [findMagic_cons₂]
          simp only [hinv.1, if_false]
          have := ih rest (by simpa using hinv.2)
          simp only [List.cons_append] at this
          rw [this]
          cases h : findMagic lo hi rest <;> simp [h]
          omega

/-- Any fuel strictly above the buffer length computes the same result:
every loop iteration that recurses consumes at least `frameLen ≥ 1`
buffered bytes. -/
theorem drainFuel_congr (frameLen lo hi : ℕ) :
    ∀ (f1 f2 : ℕ) (buf : List ℕ), buf.length < f1 → buf.length < f2 →
      drainFuel frameLen lo hi f1 buf = drainFuel frameLen lo hi f2 buf := by
  intro f1
  induction f1 with
  | zero => intro f2 buf h1 _; omega
  | succ f1 ih =>
      intro f2 buf h1 h2
      match f2, h2 with
      | f2 + 1, h2 =>
          simp only [drainFuel]
          by_cases hfl : frameLen = 0
          · simp [hfl]
          · simp only [hfl, if_false]
            cases hfm : findMagic lo hi buf with
            | none => rfl
            | some s =>
                simp only
                by_cases hlen : (List.drop s buf).length < frameLen
                · rw [if_pos hlen, if_pos hlen]
                · rw [if_neg hlen, if_neg hlen,
                    ih f2 (List.drop frameLen (List.drop s buf))
                      (by simp only [List.length_drop] at *; omega)
                      (by simp only [List.length_drop] at *; omega)]

theorem drainLoop_zero (lo hi : ℕ) (buf : List ℕ) :
    drainLoop 0 lo hi buf = ([], buf) := by
  simp [drainLoop, drainFuel]

theorem drainLoop_none {frameLen lo hi : ℕ} {buf : List ℕ}
    (hfl : frameLen ≠ 0) (h : findMagic lo hi buf = none) :
    drainLoop frameLen lo hi buf = ([], pruneTail buf) := by
  simp [drainLoop, drainFuel, hfl, h]

theorem drainLoop_short {frameLen lo hi s : ℕ} {buf : List ℕ}
    (hfl : frameLen ≠ 0) (h : findMagic lo hi buf = some s)
    (hlen : (buf.drop s).length < frameLen) :
    drainLoop frameLen lo hi buf = ([], buf.drop s) := by
  have hlen' : buf.length - s < frameLen := by
    simpa [List.length_drop] using hlen
  simp [drainLoop, drainFuel, hfl, h, hlen']

theorem drainLoop_emit {frameLen lo hi s : ℕ} {buf : List ℕ}
    (hfl : frameLen ≠ 0) (h : findMagic lo hi buf = some s)
    (hlen : ¬(buf.drop s).length < frameLen) :
    drainLoop frameLen lo hi buf =
      ((buf.drop s).take frameLen ::
          (drainLoop frameLen lo hi ((buf.drop s).drop frameLen)).1,
        (drainLoop frameLen lo hi ((buf.drop s).drop frameLen)).2) := by
  have hfuel : drainFuel frameLen lo hi buf.length
        (List.drop frameLen (List.drop s buf)) =
      drainFuel frameLen lo hi ((List.drop frameLen (List.drop s buf)).length + 1)
        (List.drop frameLen (List.drop s buf)) :=
    drainFuel_congr frameLen lo hi buf.length _ _
      (by simp only [List.length_drop] at *; omega) (Nat.lt_succ_self _)
  conv_lhs => rw [drainLoop]
  conv_lhs => simp only [drainFuel, if_neg hfl, h, if_neg hlen]
  rw [hfuel]
  conv_rhs => rw [drainLoop]

theorem pruneTail_eq_drop (l : List ℕ) : pruneTail l = l.drop (l.length - 1) := by
  unfold pruneTail
  by_cases h : 1 < l.length
  · rw [if_pos h]
  · rw [if_neg h]
    match l, h with
    | [], _ => rfl
    | [a], _ => rfl
    | a :: b :: t, h =>
        exact absurd (by simp only [List.length_cons]; omega) h

theorem pruneTail_append (j Y : List ℕ) (hY : Y ≠ []) :
    pruneTail (j ++ Y) = pruneTail Y := by
  have hYlen : 1 ≤ Y.length := by
    cases Y with
    | nil => exact absurd rfl hY
    | cons a t => simp
  rw [pruneTail_eq_drop, pruneTail_eq_drop, List.drop_append_eq_append_drop]
  have h1 : j.length + Y.length - 1 - j.length = Y.length - 1 := by omega
  have h2 : j.drop (j.length + Y.length - 1) = [] := by
    apply List.drop_eq_nil_of_le
    omega
  simp only [List.length_append, h1, h2, List.nil_append]

theorem findMagic_cons_self (lo hi : ℕ) (rest : List ℕ) :
    findMagic lo hi (lo :: hi :: rest) = some 0 := by
  rw [findMagic_cons₂, if_pos ⟨rfl, rfl⟩]

/-- Draining `buf ++ ext` is draining `buf`, then draining the retained
buffer with `ext` appended: the frame-extraction loop is incremental. -/
theorem drainLoop_append (frameLen lo hi : ℕ) :
    ∀ (n : ℕ) (buf : List ℕ), buf.length ≤ n → ∀ ext,
      drainLoop frameLen lo hi (buf ++ ext) =
        ((drainLoop frameLen lo hi buf).1 ++
            (drainLoop frameLen lo hi ((drainLoop frameLen lo hi buf).2 ++ ext)).1,
          (drainLoop frameLen lo hi ((drainLoop frameLen lo hi buf).2 ++ ext)).2) := by
  intro n
  induction n with
  | zero =>
      intro buf hb ext
      have hnil : buf = [] := List.eq_nil_of_length_eq_zero (Nat.le_zero.mp hb)
      subst hnil
      by_cases hfl : frameLen = 0
      · subst hfl
        simp [drainLoop_zero]
      · rw [drainLoop_none hfl (findMagic_nil lo hi)]
        simp [pruneTail]
  | succ n ih =>
      intro buf hb ext
      by_cases hfl : frameLen = 0
      · subst hfl
        simp [drainLoop_zero]
      cases hfm : findMagic lo hi buf with
      | none =>
          rw [drainLoop_none hfl hfm]
          simp only [List.nil_append]
          by_cases hlen : 1 < buf.length
          · -- split off the junk prefix before the retained last byte
            rcases List.eq_nil_or_concat' buf with rfl | ⟨j, t, rfl⟩
            · simp at hlen
            have hprune : pruneTail (j ++ [t]) = [t] :=
              (pruneTail_append j [t] (by simp)).trans rfl
            rw [hprune]
            have hjunk : findMagic lo hi (j ++ ([t] ++ ext).take 1) = none := by
              simpa using hfm
            have hshift := findMagic_append_junk j ([t] ++ ext) hjunk
            rw [List.append_assoc]
            cases hfm2 : findMagic lo hi ([t] ++ ext) with
            | none =>
                rw [hfm2] at hshift
                simp only [Option.map_none'] at hshift
                rw [drainLoop_none hfl hshift, drainLoop_none hfl hfm2,
                  pruneTail_append _ _ (by simp)]
            | some s2 =>
                rw [hfm2] at hshift
                simp only [Option.map_some'] at hshift
                have hdrop2 : (j ++ ([t] ++ ext)).drop (s2 + j.length) =
                    ([t] ++ ext).drop s2 := by
                  rw [List.drop_append_eq_append_drop,
                    List.drop_eq_nil_of_le (by omega), Nat.add_sub_cancel,
                    List.nil_append]
                by_cases hshort : (([t] ++ ext).drop s2).length < frameLen
                · rw [drainLoop_short hfl hshift (by rw [hdrop2]; exact hshort),
                    drainLoop_short hfl hfm2 hshort, hdrop2]
                · rw [drainLoop_emit hfl hshift (by rw [hdrop2]; exact hshort),
                    drainLoop_emit hfl hfm2 hshort, hdrop2]
          · -- short buffer: nothing is pruned
            have hprune : pruneTail buf = buf := by
              unfold pruneTail
              rw [if_neg hlen]
            rw [hprune]
      | some s =>
          obtain ⟨rest, hshape⟩ := findMagic_some_shape hfm
          have hslen : s + 2 ≤ buf.length := by
            have := congrArg List.length hshape
            simp only [List.length_drop, List.length_cons] at this
            omega
          have hfm' : findMagic lo hi (buf ++ ext) = some s :=
            findMagic_some_append hfm ext
          have hdropext : (buf ++ ext).drop s = buf.drop s ++ ext := by
            rw [List.drop_append_eq_append_drop,
              Nat.sub_eq_zero_of_le (by omega), List.drop_zero]
          have hfm0 : findMagic lo hi (buf.drop s ++ ext) = some 0 := by
            rw [hshape]
            simp only [List.cons_append]
            exact findMagic_cons_self lo hi (rest ++ ext)
          by_cases hshort : (buf.drop s).length < frameLen
          · -- a partial frame is buffered; `ext` may or may not complete it
            rw [drainLoop_short hfl hfm hshort]
            simp only [List.nil_append]
            by_cases hshort2 : ((buf ++ ext).drop s).length < frameLen
            · rw [drainLoop_short hfl hfm' hshort2, drainLoop_short hfl hfm0
                  (by rw [List.drop_zero, ← hdropext]; exact hshort2)]
              rw [List.drop_zero, hdropext]
            · rw [drainLoop_emit hfl hfm' hshort2, drainLoop_emit hfl hfm0
                  (by rw [List.drop_zero, ← hdropext]; exact hshort2)]
              rw [List.drop_zero, hdropext]
          · -- a full frame is buffered: emit it on both sides and recurse
            rw [drainLoop_emit hfl hfm hshort]
            have hshort2 : ¬((buf ++ ext).drop s).length < frameLen := by
              simp only [List.length_drop, List.length_append] at hshort ⊢
              omega
            rw [drainLoop_emit hfl hfm' hshort2, hdropext]
            have htake : (buf.drop s ++ ext).take frameLen =
                (buf.drop s).take frameLen := by
              rw [List.take_append_eq_append_take,
                Nat.sub_eq_zero_of_le (by simp only [List.length_drop] at hshort ⊢; omega),
                List.take_zero, List.append_nil]
            have hdropfl : (buf.drop s ++ ext).drop frameLen =
                (buf.drop s).drop frameLen ++ ext := by
              rw [List.drop_append_eq_append_drop,
                Nat.sub_eq_zero_of_le (by simp only [List.length_drop] at hshort ⊢; omega),
                List.drop_zero]
            rw [htake, hdropfl,
              ih ((buf.drop s).drop frameLen)
                (by simp only [List.length_drop]; omega) ext]
            simp only [List.cons_append]

/-- Splitting a chunk in two and feeding the halves in order produces the
same state and (concatenated) frames as feeding it whole. -/
theorem MagicFrameAssembler.addChunk_append (st : MagicFrameAssembler)
    (a b : List ℕ) :
    st.addChunk (a ++ b) =
      (((st.addChunk a).1.addChunk b).1,
        (st.addChunk a).2 ++ ((st.addChunk a).1.addChunk b).2) := by
  by_cases ha : a.isEmpty
  · have : a = [] := by simpa [List.isEmpty_iff] using ha
    subst this
    simp [MagicFrameAssembler.addChunk]
  · by_cases hb : b.isEmpty
    · have : b = [] := by simpa [List.isEmpty_iff] using hb
      subst this
      simp [MagicFrameAssembler.addChunk, ha]
    · have hab : (a ++ b).isEmpty = false := by
        have ha' : a ≠ [] := by simpa [List.isEmpty_iff] using ha
        simp [List.isEmpty_iff, ha']
      have key := drainLoop_append st.frameLen st.magicLo st.magicHi
        (st.buffer ++ a).length (st.buffer ++ a) le_rfl b
      rw [List.append_assoc] at key
      simp only [MagicFrameAssembler.addChunk, hab, ha, hb, Bool.false_eq_true,
        if_false, key]

/-- Fragmentation invariance, aggregate form: feeding any chunk sequence
equals feeding its concatenation as one chunk. -/
theorem MagicFrameAssembler.addChunks_join (st : MagicFrameAssembler)
    (chunks : List (List ℕ)) :
    st.addChunks chunks = st.addChunk chunks.join := by
  induction chunks generalizing st with
  | nil => simp [MagicFrameAssembler.addChunks, MagicFrameAssembler.addChunk]
  | cons c cs ih =>
      simp only [MagicFrameAssembler.addChunks, ih, List.join_cons,
        MagicFrameAssembler.addChunk_append]

theorem pruneTail_length_le (l : List ℕ) : (pruneTail l).length ≤ 1 := by
  unfold pruneTail
  by_cases h : 1 < l.length
  · rw [if_pos h]
    simp only [List.length_drop]
    omega
  · rw [if_neg h]
    omega

/-- After the loop returns, the retained buffer is at most one byte (no
magic found), or a magic-headed partial frame shorter than `frameLen`. -/
theorem drainLoop_final (frameLen lo hi : ℕ) (hfl : frameLen ≠ 0) :
    ∀ (n : ℕ) (buf : List ℕ), buf.length ≤ n →
      (drainLoop frameLen lo hi buf).2.length ≤ 1 ∨
        ∃ rest, (drainLoop frameLen lo hi buf).2 = lo :: hi :: rest ∧
          (drainLoop frameLen lo hi buf).2.length < frameLen := by
  intro n
  induction n with
  | zero =>
      intro buf hb
      have hnil : buf = [] := List.eq_nil_of_length_eq_zero (Nat.le_zero.mp hb)
      subst hnil
      rw [drainLoop_none hfl (findMagic_nil lo hi)]
      exact Or.inl (pruneTail_length_le [])
  | succ n ih =>
      intro buf hb
      cases hfm : findMagic lo hi buf with
      | none =>
          rw [drainLoop_none hfl hfm]
          exact Or.inl (pruneTail_length_le buf)
      | some s =>
          obtain ⟨rest, hshape⟩ := findMagic_some_shape hfm
          by_cases hshort : (buf.drop s).length < frameLen
          · rw [drainLoop_short hfl hfm hshort]
            exact Or.inr ⟨rest, hshape, hshort⟩
          · rw [drainLoop_emit hfl hfm hshort]
            exact ih ((buf.drop s).drop frameLen)
              (by simp only [List.length_drop]; omega)

theorem findMagic_append_single {lo hi : ℕ} (hne : lo ≠ hi) :
    ∀ (g : List ℕ), findMagic lo hi g = none →
      findMagic lo hi (g ++ [lo]) = none := by
  intro g
  induction g with
  | nil => intro _; rfl
  | cons a g2 ih =>
      intro h
      match g2 with
      | [] =>
          simp only [List.cons_append, List.nil_append]
          rw [findMagic_cons₂, if_neg (fun hc => hne hc.2)]
          rfl
      | b :: g3 =>
          have hinv := findMagic_none_cons₂ h
          simp only [List.cons_append]
          rw [findMagic_cons₂, if_neg hinv.1]
          have := ih hinv.2
          simp only [List.cons_append] at this
          rw [this]
          rfl

/-- Resynchronization: a garbage prefix free of the magic byte pair,
followed by well-formed concatenated frames, drains to exactly those
frames. -/
theorem drainLoop_garbage_frames (frameLen lo hi : ℕ) (hne : lo ≠ hi) :
    ∀ (frames : List (List ℕ)) (garbage : List ℕ),
      findMagic lo hi garbage = none →
      (∀ f ∈ frames, f.length = frameLen ∧ f.take 2 = [lo, hi]) →
      (drainLoop frameLen lo hi (garbage ++ frames.join)).1 = frames := by
  intro frames
  induction frames with
  | nil =>
      intro garbage hg _
      simp only [List.join_nil, List.append_nil]
      by_cases hfl : frameLen = 0
      · subst hfl
        rw [drainLoop_zero]
      · rw [drainLoop_none hfl hg]
  | cons f fs ih =>
      intro garbage hg hwf
      obtain ⟨hflen, htake⟩ := hwf f (by simp)
      have hf : f = lo :: hi :: f.drop 2 := by
        conv_lhs => rw [← List.take_append_drop 2 f, htake]
        rfl
      have hfl : frameLen ≠ 0 := by
        intro hcon
        rw [hcon] at hflen
        rw [List.eq_nil_of_length_eq_zero hflen] at hf
        simp at hf
      have hjoin : (f :: fs).join = f ++ fs.join := List.join_cons
      have htake1 : (f ++ fs.join).take 1 = [lo] := by
        rw [hf]
        rfl
      have hfm : findMagic lo hi (garbage ++ (f ++ fs.join)) =
          some garbage.length := by
        rw [findMagic_append_junk garbage (f ++ fs.join)
            (by rw [htake1]; exact findMagic_append_single hne garbage hg)]
        rw [show findMagic lo hi (f ++ fs.join) = some 0 by
          rw [hf]
          simp only [List.cons_append]
          exact findMagic_cons_self lo hi _]
        simp
      have hdropg : (garbage ++ (f ++ fs.join)).drop garbage.length =
          f ++ fs.join := List.drop_left garbage _
      have hlen2 : ¬((garbage ++ (f ++ fs.join)).drop garbage.length).length
          < frameLen := by
        rw [hdropg]
        simp only [List.length_append]
        omega
      rw [hjoin, drainLoop_emit hfl hfm hlen2, hdropg]
      have htakef : (f ++ fs.join).take frameLen = f := by
        rw [← hflen]
        exact List.take_left f _
      have hdropf : (f ++ fs.join).drop frameLen = fs.join := by
        rw [← hflen]
        exact List.drop_left f _
      rw [htakef, hdropf]
      have := ih [] rfl (fun g hgmem => hwf g (by simp [hgmem]))
      simp only [List.nil_append] at this
      rw [this]

theorem frames_join_nil {frames : List (List ℕ)}
    (hwf : ∀ f ∈ frames, f.take 2 = [0xEF, 0xBE])
    (hj : frames.join = []) : frames = [] := by
  match frames with
  | [] => rfl
  | f :: fs =>
      have hj' : f ++ fs.join = [] := by simpa using hj
      have hf : f = [] := (List.append_eq_nil.mp hj').1
      have := hwf f (by simp)
      rw [hf] at this
      simp at this

/-- **C1** (amended).  For every garbage prefix that contains no
occurrence of the two-byte little-endian magic `EF BE`, followed by
concatenated well-formed frames (each exactly `frameLen` bytes starting
with the magic), feeding the stream to `addChunk` in any chunking emits
exactly the original frames, byte-identical and in order. -/
theorem c1_resync_after_garbage_prefix (frameLen : ℕ) (garbage : List ℕ)
    (frames chunks : List (List ℕ))
    (hg : findMagic 0xEF 0xBE garbage = none)
    (hwf : ∀ f ∈ frames, f.length = frameLen ∧ f.take 2 = [0xEF, 0xBE])
    (hchunks : chunks.join = garbage ++ frames.join) :
    ((mkMagicFrameAssembler frameLen).addChunks chunks).2 = frames := by
  rw [MagicFrameAssembler.addChunks_join, hchunks]
  by_cases hemp : (garbage ++ frames.join).isEmpty
  · have hgnil : garbage = [] := by
      have := List.isEmpty_iff.mp hemp
      exact (List.append_eq_nil.mp this).1
    have hjnil : frames.join = [] := by
      have := List.isEmpty_iff.mp hemp
      exact (List.append_eq_nil.mp this).2
    have hfnil : frames = [] := frames_join_nil (fun f hf => (hwf f hf).2) hjnil
    subst hgnil
    subst hfnil
    simp [MagicFrameAssembler.addChunk]
  · have hlo : (mkMagicFrameAssembler frameLen).magicLo = 0xEF := rfl
    have hhi : (mkMagicFrameAssembler frameLen).magicHi = 0xBE := rfl
    have hbuf : (mkMagicFrameAssembler frameLen).buffer = [] := rfl
    have hfr : (mkMagicFrameAssembler frameLen).frameLen = frameLen := rfl
    simp only [MagicFrameAssembler.addChunk, hemp, Bool.false_eq_true, if_false,
      hlo, hhi, hbuf, hfr, List.nil_append]
    exact drainLoop_garbage_frames frameLen 0xEF 0xBE (by omega) frames garbage hg hwf

/-- **C1** counterexample to the claim as stated: with `frameLen = 4`,
the garbage prefix `EF BE` itself contains the magic pair, so the
assembler locks onto the false start, passes the length check once
enough bytes arrive, and emits a bogus frame instead of the genuine
frame `EF BE 01 02` concatenated after the garbage. -/
theorem c1_counterexample :
    ((mkMagicFrameAssembler 4).addChunks [[0xEF, 0xBE, 0xEF, 0xBE, 1, 2]]).2 =
        [[0xEF, 0xBE, 0xEF, 0xBE]] ∧
      ¬((mkMagicFrameAssembler 4).addChunks [[0xEF, 0xBE, 0xEF, 0xBE, 1, 2]]).2 =
        [[0xEF, 0xBE, 1, 2]] := by
  decide

/-- **C1** witness: a concrete garbage prefix (no magic pair) and two
frames, fed byte-by-byte. -/
theorem c1_resync_after_garbage_prefix_witness :
    findMagic 0xEF 0xBE [7, 0xBE, 0xEF] = none ∧
      (∀ f ∈ [[0xEF, 0xBE, 1, 2], [0xEF, 0xBE, 3, 4]],
        f.length = 4 ∧ f.take 2 = [0xEF, 0xBE]) ∧
      ([[7], [0xBE], [0xEF], [0xEF], [0xBE], [1], [2], [0xEF], [0xBE], [3],
          [4]].join =
        [7, 0xBE, 0xEF] ++ [[0xEF, 0xBE, 1, 2], [0xEF, 0xBE, 3, 4]].join) ∧
      ((mkMagicFrameAssembler 4).addChunks
          [[7], [0xBE], [0xEF], [0xEF], [0xBE], [1], [2], [0xEF], [0xBE], [3],
            [4]]).2 =
        [[0xEF, 0xBE, 1, 2], [0xEF, 0xBE, 3, 4]] :=
  ⟨by decide, by decide, by decide,
    c1_resync_after_garbage_prefix 4 [7, 0xBE, 0xEF]
      [[0xEF, 0xBE, 1, 2], [0xEF, 0xBE, 3, 4]] _ (by decide) (by decide)
      (by decide)⟩

/-- **C7**.  Fragmentation invariance: feeding a well-formed frame
stream split into fragments of any sizes from 1 byte up to the MTU, in
order, emits exactly the same frame sequence as feeding the whole
stream as one contiguous chunk. -/
theorem c7_fragmentation_invariance (frameLen mtu : ℕ)
    (frames chunks : List (List ℕ))
    (hwf : ∀ f ∈ frames, f.length = frameLen ∧ f.take 2 = [0xEF, 0xBE])
    (hchunks : chunks.join = frames.join)
    (hsizes : ∀ ch ∈ chunks, 1 ≤ ch.length ∧ ch.length ≤ mtu) :
    ((mkMagicFrameAssembler frameLen).addChunks chunks).2 =
      ((mkMagicFrameAssembler frameLen).addChunk frames.join).2 := by
  rw [MagicFrameAssembler.addChunks_join, hchunks]

/-- **C7** witness: one frame split into 1- and 2-byte fragments under
MTU 20 decodes identically to the contiguous stream. -/
theorem c7_fragmentation_invariance_witness :
    (∀ f ∈ [[0xEF, 0xBE, 9, 9]], f.length = 4 ∧ f.take 2 = [0xEF, 0xBE]) ∧
      ([[0xEF], [0xBE, 9], [9]].join = [[0xEF, 0xBE, 9, 9]].join) ∧
      (∀ ch ∈ [[0xEF], [0xBE, 9], [9]], 1 ≤ ch.length ∧ ch.length ≤ 20) ∧
      ((mkMagicFrameAssembler 4).addChunks [[0xEF], [0xBE, 9], [9]]).2 =
        ((mkMagicFrameAssembler 4).addChunk [[0xEF, 0xBE, 9, 9]].join).2 :=
  ⟨by decide, by decide, by decide,
    c7_fragmentation_invariance 4 20 [[0xEF, 0xBE, 9, 9]] _ (by decide)
      (by decide) (by decide)⟩

/-- **C10**.  Reassembler memory bound: for `frameLen ≥ 2`, after every
call to `addChunk` the accumulation buffer holds strictly fewer than
`frameLen` bytes, and when no magic pair is present in it, at most one
byte is retained. -/
theorem c10_buffer_bound (frameLen : ℕ) (hfl : 2 ≤ frameLen)
    (chunks : List (List ℕ)) :
    (((mkMagicFrameAssembler frameLen).addChunks chunks).1.buffer.length
        < frameLen) ∧
      (findMagic 0xEF 0xBE
          ((mkMagicFrameAssembler frameLen).addChunks chunks).1.buffer = none →
        ((mkMagicFrameAssembler frameLen).addChunks chunks).1.buffer.length
          ≤ 1) := by
  rw [MagicFrameAssembler.addChunks_join]
  by_cases hemp : chunks.join.isEmpty
  · simp only [MagicFrameAssembler.addChunk, hemp, if_true]
    constructor
    · show ([] : List ℕ).length < frameLen
      simp only [List.length_nil]
      omega
    · intro _
      show ([] : List ℕ).length ≤ 1
      simp
  · have hlo : (mkMagicFrameAssembler frameLen).magicLo = 0xEF := rfl
    have hhi : (mkMagicFrameAssembler frameLen).magicHi = 0xBE := rfl
    have hbuf : (mkMagicFrameAssembler frameLen).buffer = [] := rfl
    have hfr : (mkMagicFrameAssembler frameLen).frameLen = frameLen := rfl
    simp only [MagicFrameAssembler.addChunk, hemp, Bool.false_eq_true, if_false,
      hlo, hhi, hbuf, hfr, List.nil_append]
    have hfin := drainLoop_final frameLen 0xEF 0xBE (by omega)
      chunks.join.length chunks.join le_rfl
    rcases hfin with hle | ⟨rest, heq, hlt⟩
    · exact ⟨by omega, fun _ => hle⟩
    · refine ⟨hlt, fun hnone => ?_⟩
      rw [heq, findMagic_cons_self] at hnone
      exact absurd hnone (by simp)

/-- **C10** witness: a split magic byte is retained, within the bound. -/
theorem c10_buffer_bound_witness :
    (2 ≤ 4) ∧
      (((mkMagicFrameAssembler 4).addChunks [[1, 2, 0xEF]]).1.buffer.length
          < 4) ∧
      (findMagic 0xEF 0xBE
          ((mkMagicFrameAssembler 4).addChunks [[1, 2, 0xEF]]).1.buffer = none →
        ((mkMagicFrameAssembler 4).addChunks [[1, 2, 0xEF]]).1.buffer.length
          ≤ 1) :=
  ⟨by decide, (c10_buffer_bound 4 (by decide) [[1, 2, 0xEF]]).1,
    (c10_buffer_bound 4 (by decide) [[1, 2, 0xEF]]).2⟩

/-! ## Quantizer lemmas -/

/-- The clamp at the head of `quantize_u16` (lower bound first). -/
theorem quantize_clamp_eq (x minV maxV : ℚ) :
    (if (if x < minV then minV else x) > maxV then maxV
      else if x < minV then minV else x) = min maxV (max minV x) := by
  by_cases h1 : x < minV
  · simp only [if_pos h1]
    by_cases h2 : minV > maxV
    · rw [if_pos h2, max_eq_left h1.le, min_eq_left h2.le]
    · rw [if_neg h2, max_eq_left h1.le, min_eq_right (not_lt.mp h2)]
  · simp only [if_neg h1]
    by_cases h3 : x > maxV
    · rw [if_pos h3, max_eq_right (not_lt.mp h1), min_eq_left h3.le]
    · rw [if_neg h3, max_eq_right (not_lt.mp h1), min_eq_right (not_lt.mp h3)]

theorem clamp_idem (x minV maxV : ℚ) :
    min maxV (max minV (min maxV (max minV x))) = min maxV (max minV x) := by
  rcases le_total minV maxV with h | h
  · have h1 : minV ≤ min maxV (max minV x) := le_min h (le_max_left _ _)
    rw [max_eq_right h1]
    exact min_eq_right (min_le_left _ _)
  · have hm : min maxV (max minV x) = maxV :=
      min_eq_left (le_trans h (le_max_left _ _))
    rw [hm, max_eq_left h, min_eq_left h]

/-- `quantize_u16` sees only the clamped input. -/
theorem quantize_u16_clamp (x minV maxV : ℚ) :
    quantize_u16 x minV maxV =
      quantize_u16 (min maxV (max minV x)) minV maxV := by
  simp only [quantize_u16]
  rw [quantize_clamp_eq x, quantize_clamp_eq (min maxV (max minV x)), clamp_idem]

/-- Inside a nondegenerate range, `quantize_u16` is the rounded linear
map, and its value never exceeds `65535`. -/
theorem quantize_u16_eq_of_mem (x minV maxV : ℚ) (h : minV < maxV)
    (hx1 : minV ≤ x) (hx2 : x ≤ maxV) :
    quantize_u16 x minV maxV =
        (lroundQ ((x - minV) / (maxV - minV) * 65535)).toNat ∧
      quantize_u16 x minV maxV ≤ 65535 := by
  have hr : ¬maxV - minV ≤ 0 := by linarith
  have ht0 : (0 : ℚ) ≤ (x - minV) / (maxV - minV) * 65535 := by
    apply mul_nonneg (div_nonneg (by linarith) (by linarith))
    norm_num
  have hround : lroundQ ((x - minV) / (maxV - minV) * 65535) =
      ⌊(x - minV) / (maxV - minV) * 65535 + 1 / 2⌋ := by
    unfold lroundQ
    rw [if_pos ht0]
  have htle : (x - minV) / (maxV - minV) * 65535 ≤ 65535 := by
    have hnorm : (x - minV) / (maxV - minV) ≤ 1 :=
      (div_le_one (by linarith)).mpr (by linarith)
    nlinarith
  have hub : ⌊(x - minV) / (maxV - minV) * 65535 + 1 / 2⌋ ≤ 65535 := by
    have : ⌊(x - minV) / (maxV - minV) * 65535 + 1 / 2⌋ < (65536 : ℤ) := by
      rw [Int.floor_lt]
      push_cast
      linarith
    omega
  have hq65 : (lroundQ ((x - minV) / (maxV - minV) * 65535)).toNat ≤ 65535 := by
    rw [hround]
    exact Int.toNat_le.mpr hub
  have hmain : quantize_u16 x minV maxV =
      (lroundQ ((x - minV) / (maxV - minV) * 65535)).toNat := by
    simp only [quantize_u16]
    rw [if_neg (not_lt.mpr hx1), if_neg (not_lt.mpr hx2), if_neg hr,
      if_neg (not_lt.mpr hq65)]
  exact ⟨hmain, hmain ▸ hq65⟩

/-- **C4**.  Quantization round-trip bound: for `minV < maxV` and
`x ∈ [minV, maxV]`, dequantizing the quantized value recovers `x` to
within one quantization step `(maxV - minV) / 65535`. -/
theorem c4_roundtrip_bound (x minV maxV : ℚ) (h : minV < maxV)
    (hx1 : minV ≤ x) (hx2 : x ≤ maxV) :
    |dequantize_u16 (quantize_u16 x minV maxV) minV maxV - x| ≤
      (maxV - minV) / 65535 := by
  obtain ⟨hquant, -⟩ := quantize_u16_eq_of_mem x minV maxV h hx1 hx2
  have ht0 : (0 : ℚ) ≤ (x - minV) / (maxV - minV) * 65535 := by
    apply mul_nonneg (div_nonneg (by linarith) (by linarith))
    norm_num
  have hround : lroundQ ((x - minV) / (maxV - minV) * 65535) =
      ⌊(x - minV) / (maxV - minV) * 65535 + 1 / 2⌋ := by
    unfold lroundQ
    rw [if_pos ht0]
  set t : ℚ := (x - minV) / (maxV - minV) * 65535 with htdef
  have hnn : 0 ≤ ⌊t + 1 / 2⌋ := Int.floor_nonneg.mpr (by linarith)
  have hcast : ((quantize_u16 x minV maxV : ℕ) : ℚ) = ((⌊t + 1 / 2⌋ : ℤ) : ℚ) := by
    rw [hquant, hround]
    norm_cast
    exact Int.toNat_of_nonneg hnn
  have hfl1 : ((⌊t + 1 / 2⌋ : ℤ) : ℚ) ≤ t + 1 / 2 := Int.floor_le _
  have hfl2 : t + 1 / 2 - 1 < ((⌊t + 1 / 2⌋ : ℤ) : ℚ) := Int.sub_one_lt_floor _
  have hne : maxV - minV ≠ 0 := ne_of_gt (by linarith)
  have hxrec : x = minV + t / 65535 * (maxV - minV) := by
    rw [htdef]
    field_simp
    ring
  unfold dequantize_u16
  rw [hcast]
  rw [abs_le]
  constructor
  · nlinarith
  · nlinarith

/-- **C4** witness at `x = 1`, `[minV, maxV] = [0, 10]`. -/
theorem c4_roundtrip_bound_witness :
    (0 : ℚ) < 10 ∧ (0 : ℚ) ≤ 1 ∧ (1 : ℚ) ≤ 10 ∧
      |dequantize_u16 (quantize_u16 1 0 10) 0 10 - 1| ≤ ((10 : ℚ) - 0) / 65535 :=
  ⟨by norm_num, by norm_num, by norm_num,
    c4_roundtrip_bound 1 0 10 (by norm_num) (by norm_num) (by norm_num)⟩

/-- **C9**.  Quantizer postcondition: the input is clamped to
`[minV, maxV]`; a degenerate range returns `0`; otherwise the value is
the round-to-nearest linear map onto `[0, 65535]`, and in particular
`quantize(minV - 1) = 0` and `quantize(maxV + 1) = 65535`. -/
theorem c9_quantize_postcondition (minV maxV : ℚ) :
    (∀ x, quantize_u16 x minV maxV =
        quantize_u16 (min maxV (max minV x)) minV maxV) ∧
      (maxV ≤ minV → ∀ x, quantize_u16 x minV maxV = 0) ∧
      (minV < maxV →
        (∀ x, minV ≤ x → x ≤ maxV →
          quantize_u16 x minV maxV =
            (lroundQ ((x - minV) / (maxV - minV) * 65535)).toNat) ∧
          quantize_u16 (minV - 1) minV maxV = 0 ∧
          quantize_u16 (maxV + 1) minV maxV = 65535) := by
  refine ⟨fun x => quantize_u16_clamp x minV maxV, ?_, ?_⟩
  · intro hdeg x
    simp only [quantize_u16]
    rw [if_pos (by linarith : maxV - minV ≤ 0)]
  · intro h
    refine ⟨fun x hx1 hx2 => (quantize_u16_eq_of_mem x minV maxV h hx1 hx2).1,
      ?_, ?_⟩
    · rw [quantize_u16_clamp]
      have hcl : min maxV (max minV (minV - 1)) = minV := by
        rw [max_eq_left (by linarith), min_eq_right (le_of_lt h)]
      rw [hcl, (quantize_u16_eq_of_mem minV minV maxV h le_rfl (le_of_lt h)).1]
      have hz : (minV - minV) / (maxV - minV) * 65535 = 0 := by
        simp
      rw [hz]
      unfold lroundQ
      rw [if_pos le_rfl]
      norm_num
    · rw [quantize_u16_clamp]
      have hcl : min maxV (max minV (maxV + 1)) = maxV := by
        rw [max_eq_right (by linarith), min_eq_left (by linarith)]
      rw [hcl, (quantize_u16_eq_of_mem maxV minV maxV h (le_of_lt h) le_rfl).1]
      have hne : maxV - minV ≠ 0 := ne_of_gt (by linarith)
      have ho : (maxV - minV) / (maxV - minV) * 65535 = 65535 := by
        rw [div_self hne]
        norm_num
      rw [ho]
      unfold lroundQ
      rw [if_pos (by norm_num)]
      norm_num
      rfl

/-- **C9** witness on the range `[0, 100]`. -/
theorem c9_quantize_postcondition_witness :
    (0 : ℚ) < 100 ∧ quantize_u16 ((0 : ℚ) - 1) 0 100 = 0 ∧
      quantize_u16 ((100 : ℚ) + 1) 0 100 = 65535 :=
  ⟨by norm_num, ((c9_quantize_postcondition 0 100).2.2 (by norm_num)).2.1,
    ((c9_quantize_postcondition 0 100).2.2 (by norm_num)).2.2⟩

/-! ## Frame layout and pack/decode round trip -/

/-- The clip applied by the packing loop before quantization
(upper bound first, then lower bound). -/
def packClip (x minV maxV : ℚ) : ℚ :=
  let x1 := if x > maxV then maxV else x
  if x1 < minV then minV else x1

/-- The u16 sample actually written for a node value `x`. -/
def packedSample (x minV maxV : ℚ) : ℕ :=
  quantize_u16 (packClip x minV maxV) minV maxV

theorem packSampleBytes_eq (x minV maxV : ℚ) :
    packSampleBytes x minV maxV =
      [packedSample x minV maxV % 256, packedSample x minV maxV / 256 % 256] :=
  rfl

/-- The row-major list of quantized samples: the payload body described
by the spec (magic, frame id, then samples, two little-endian bytes
each). -/
def rowMajorSamples (m : ℕ → ℕ → ℚ) (minV maxV : ℚ) : List ℕ :=
  (List.range numRows).flatMap fun r =>
    (List.range numCols).map fun c => packedSample (m r c) minV maxV

theorem quantize_u16_le (x minV maxV : ℚ) : quantize_u16 x minV maxV ≤ 65535 := by
  simp only [quantize_u16]
  split_ifs with h1 h2 <;> omega

theorem u16_bytes_recompose {q : ℕ} (h : q ≤ 65535) :
    q % 256 + 256 * (q / 256 % 256) = q := by
  omega

theorem length_flatMap_const {α β : Type} (l : List α) (f : α → List β) (k : ℕ)
    (h : ∀ a ∈ l, (f a).length = k) : (l.flatMap f).length = l.length * k := by
  induction l with
  | nil => simp
  | cons a t ih =>
      rw [List.flatMap_cons, List.length_append, h a (by simp),
        ih (fun b hb => h b (by simp [hb]))]
      simp [Nat.succ_mul]
      omega

theorem flatMap_drop_const {α β : Type} (f : α → List β) (k : ℕ) :
    ∀ (l : List α) (i : ℕ), (∀ a ∈ l, (f a).length = k) →
      (l.flatMap f).drop (i * k) = (l.drop i).flatMap f := by
  intro l
  induction l with
  | nil => intro i _; simp
  | cons a t ih =>
      intro i h
      cases i with
      | zero => simp
      | succ j =>
          rw [List.flatMap_cons, List.drop_append_eq_append_drop,
            List.drop_eq_nil_of_le (by rw [h a (by simp)]; nlinarith),
            List.nil_append, h a (by simp),
            show (j + 1) * k - k = j * k by ring_nf; omega,
            ih j (fun b hb => h b (by simp [hb]))]
          simp

theorem pairsToValues_flatMap (minV maxV : ℚ) :
    ∀ qs : List ℕ,
      pairsToValues minV maxV (qs.flatMap fun q => [q % 256, q / 256 % 256]) =
        qs.map fun q =>
          dequantize_u16 (q % 256 + 256 * (q / 256 % 256)) minV maxV := by
  intro qs
  induction qs with
  | nil => rfl
  | cons a t ih =>
      rw [List.flatMap_cons, List.map_cons,
        show [a % 256, a / 256 % 256] ++
            (t.flatMap fun q => [q % 256, q / 256 % 256]) =
          a % 256 :: a / 256 % 256 ::
            (t.flatMap fun q => [q % 256, q / 256 % 256]) from rfl,
        pairsToValues, ih]

/-- The grid of dequantized samples the host recovers before rescaling. -/
def dequantizedMatrix (m : ℕ → ℕ → ℚ) (minV maxV : ℚ) : List (List ℚ) :=
  (List.range numRows).map fun r =>
    (List.range numCols).map fun c =>
      dequantize_u16 (packedSample (m r c) minV maxV) minV maxV

/-- Pack/decode round trip: a frame produced by `packMatrixToPayload`
always decodes successfully, recovering the (mod-2^16) frame id and the
rescaled dequantized grid. -/
theorem decodeFrameU16_pack (m : ℕ → ℕ → ℚ) (minV maxV : ℚ) (fid : ℕ) :
    decodeFrameU16 (packMatrixToPayload m minV maxV fid) minV maxV
        numRows numCols =
      Except.ok (fid % 256 + 256 * (fid / 256 % 256),
        rescaleMatrix (dequantizedMatrix m minV maxV)) := by
  have hrowlen : ∀ r : ℕ,
      ((List.range numCols).flatMap fun c =>
        packSampleBytes (m r c) minV maxV).length = 16 := fun r => by
    rw [length_flatMap_const _ _ 2 (fun c _ => by simp [packSampleBytes_eq]),
      List.length_range]
    rfl
  have hbodylen :
      ((List.range numRows).flatMap fun r =>
        (List.range numCols).flatMap fun c =>
          packSampleBytes (m r c) minV maxV).length = 192 := by
    rw [length_flatMap_const _ _ 16 (fun r _ => hrowlen r), List.length_range]
    rfl
  have hpay : packMatrixToPayload m minV maxV fid =
      0xEF :: 0xBE :: (fid % 256) :: (fid / 256 % 256) ::
        ((List.range numRows).flatMap fun r =>
          (List.range numCols).flatMap fun c =>
            packSampleBytes (m r c) minV maxV) := rfl
  simp only [decodeFrameU16]
  rw [hpay]
  have hlen : (0xEF :: 0xBE :: (fid % 256) :: (fid / 256 % 256) ::
      ((List.range numRows).flatMap fun r =>
        (List.range numCols).flatMap fun c =>
          packSampleBytes (m r c) minV maxV)).length =
      4 + numRows * numCols * 2 := by
    simp only [List.length_cons, hbodylen]
    rfl
  rw [if_neg (fun hne => hne hlen)]
  simp only [List.getD_cons_zero, List.getD_cons_succ]
  rw [if_neg (show ¬(0xEF + 256 * 0xBE ≠ 0xbeef) from fun hne => hne (by norm_num))]
  simp only [List.drop_succ_cons, List.drop_zero]
  simp only [decodePayloadU16]
  rw [if_neg (show ¬(((List.range numRows).flatMap fun r =>
      (List.range numCols).flatMap fun c =>
        packSampleBytes (m r c) minV maxV).length % 2 ≠ 0)
    from fun hne => hne (by rw [hbodylen]))]
  have hbody2 : ((List.range numRows).flatMap fun r =>
      (List.range numCols).flatMap fun c =>
        packSampleBytes (m r c) minV maxV) =
      (rowMajorSamples m minV maxV).flatMap fun q => [q % 256, q / 256 % 256] := by
    rw [rowMajorSamples, List.flatMap_assoc]
    simp only [List.flatMap_map, packSampleBytes_eq]
  rw [hbody2, pairsToValues_flatMap]
  have hmem : ∀ q ∈ rowMajorSamples m minV maxV, q ≤ 65535 := by
    intro q hq
    rw [rowMajorSamples] at hq
    simp only [List.mem_flatMap, List.mem_map] at hq
    obtain ⟨r, -, c, -, rfl⟩ := hq
    exact quantize_u16_le _ _ _
  have hvals : ((rowMajorSamples m minV maxV).map fun q =>
        dequantize_u16 (q % 256 + 256 * (q / 256 % 256)) minV maxV) =
      (rowMajorSamples m minV maxV).map fun q =>
        dequantize_u16 q minV maxV := by
    apply List.map_congr_left
    intro q hq
    rw [u16_bytes_recompose (hmem q hq)]
  rw [hvals]
  have hvals2 : ((rowMajorSamples m minV maxV).map fun q =>
        dequantize_u16 q minV maxV) =
      (List.range numRows).flatMap fun r =>
        (List.range numCols).map fun c =>
          dequantize_u16 (packedSample (m r c) minV maxV) minV maxV := by
    rw [rowMajorSamples, List.map_flatMap]
    simp only [List.map_map]
    rfl
  rw [hvals2]
  have hrows : ((List.range numRows).map fun r =>
        (((List.range numRows).flatMap fun r =>
          (List.range numCols).map fun c =>
            dequantize_u16 (packedSample (m r c) minV maxV) minV maxV).drop
              (r * numCols)).take numCols) =
      dequantizedMatrix m minV maxV := by
    rw [dequantizedMatrix]
    apply List.map_congr_left
    intro r hr
    have hrlt : r < numRows := by simpa using hr
    rw [flatMap_drop_const _ numCols _ r (fun a _ => by rw [List.length_map, List.length_range]),
      List.drop_eq_getElem_cons (by simpa using hrlt), List.getElem_range,
      List.flatMap_cons, List.take_left']
    rw [List.length_map, List.length_range]
  exact congrArg (fun mat => Except.ok
    (fid % 256 + 256 * (fid / 256 % 256), rescaleMatrix mat)) hrows

/-- The payload body is the row-major sample list, two little-endian
bytes per sample. -/
theorem pack_body_eq (m : ℕ → ℕ → ℚ) (minV maxV : ℚ) :
    ((List.range numRows).flatMap fun r =>
      (List.range numCols).flatMap fun c =>
        packSampleBytes (m r c) minV maxV) =
      (rowMajorSamples m minV maxV).flatMap fun q =>
        [q % 256, q / 256 % 256] := by
  rw [rowMajorSamples, List.flatMap_assoc]
  simp only [List.flatMap_map, packSampleBytes_eq]

theorem packMatrixToPayload_length (m : ℕ → ℕ → ℚ) (minV maxV : ℚ)
    (fid : ℕ) : (packMatrixToPayload m minV maxV fid).length = kPayloadBytes := by
  rw [packMatrixToPayload, List.length_append,
    length_flatMap_const _ _ 16 (fun r _ => by
      rw [length_flatMap_const _ _ 2 (fun c _ => by simp [packSampleBytes_eq]),
        List.length_range]
      rfl),
    List.length_range]
  rfl

/-- **C3** (amended).  Frame layout: `packMatrixToPayload` writes the
magic `0xBEEF` as a little-endian u16 (`EF BE`), then `frame_id`
little-endian, then the row-major quantized samples as little-endian
u16 pairs; the total size is `kPayloadBytes = 4 + 2*R*C`, which for the
reference 12×8 grid is 196 bytes (not the 200 the spec states). -/
theorem c3_frame_layout (m : ℕ → ℕ → ℚ) (minV maxV : ℚ) (fid : ℕ) :
    packMatrixToPayload m minV maxV fid =
        [kMagic % 256, kMagic / 256 % 256, fid % 256, fid / 256 % 256] ++
          ((rowMajorSamples m minV maxV).flatMap fun q =>
            [q % 256, q / 256 % 256]) ∧
      kMagic = 0xBEEF ∧ kMagic % 256 = 0xEF ∧ kMagic / 256 % 256 = 0xBE ∧
      (packMatrixToPayload m minV maxV fid).length = kPayloadBytes ∧
      kPayloadBytes = 4 + 2 * (numRows * numCols) ∧
      numRows = 12 ∧ numCols = 8 ∧ kPayloadBytes = 196 := by
  refine ⟨?_, rfl, rfl, rfl, packMatrixToPayload_length m minV maxV fid,
    rfl, rfl, rfl, rfl⟩
  rw [packMatrixToPayload, pack_body_eq]

/-- **C3** counterexample to the claim as stated: the reference frame is
196 bytes, not 200 (`4 + 2*12*8 = 196`). -/
theorem c3_counterexample :
    (packMatrixToPayload (fun _ _ => 0) MIN_RESISTANCE MAX_RESISTANCE 0).length
      ≠ 200 := by
  rw [packMatrixToPayload_length]
  decide

/-- **C8**.  Decoder error behaviour: `decodeFrameU16` fails exactly
when the length differs from `4 + rows*cols*2` or the first two bytes,
read as a little-endian u16, differ from `0xBEEF`; on every other input
it succeeds and returns the frame id read from bytes 2–3. -/
theorem c8_decode_error_behaviour (bytes : List ℕ) (minV maxV : ℚ)
    (rows cols : ℕ) (hbytes : ∀ b ∈ bytes, b < 256) :
    ((∃ e, decodeFrameU16 bytes minV maxV rows cols = Except.error e) ↔
        (bytes.length ≠ 4 + rows * cols * 2 ∨
          bytes.getD 0 0 + 256 * bytes.getD 1 0 ≠ 0xbeef)) ∧
      (bytes.length = 4 + rows * cols * 2 →
        bytes.getD 0 0 + 256 * bytes.getD 1 0 = 0xbeef →
        ∃ grid, decodeFrameU16 bytes minV maxV rows cols =
          Except.ok (bytes.getD 2 0 + 256 * bytes.getD 3 0, grid)) := by
  by_cases hlen : bytes.length = 4 + rows * cols * 2
  · by_cases hmag : bytes.getD 0 0 + 256 * bytes.getD 1 0 = 0xbeef
    · have heven : ¬((bytes.drop 4).length % 2 ≠ 0) := by
        rw [List.length_drop, hlen]
        omega
      have hvals : decodePayloadU16 (bytes.drop 4) minV maxV =
          Except.ok (pairsToValues minV maxV (bytes.drop 4)) := by
        simp only [decodePayloadU16]
        rw [if_neg heven]
      have hdec : decodeFrameU16 bytes minV maxV rows cols =
          Except.ok (bytes.getD 2 0 + 256 * bytes.getD 3 0,
            rescaleMatrix ((List.range rows).map fun r =>
              ((pairsToValues minV maxV (bytes.drop 4)).drop (r * cols)).take
                cols)) := by
        simp only [decodeFrameU16]
        rw [if_neg (fun h => h hlen), if_neg (fun h => h hmag), hvals]
      refine ⟨⟨?_, ?_⟩, fun _ _ => ⟨_, hdec⟩⟩
      · rintro ⟨e, he⟩
        rw [hdec] at he
        exact absurd he (by simp)
      · rintro (h | h)
        · exact absurd hlen h
        · exact absurd hmag h
    · have hdec : decodeFrameU16 bytes minV maxV rows cols =
          Except.error "bad magic" := by
        simp only [decodeFrameU16]
        rw [if_neg (fun h => h hlen), if_pos hmag]
      exact ⟨⟨fun _ => Or.inr hmag, fun _ => ⟨_, hdec⟩⟩,
        fun _ hm => absurd hm hmag⟩
  · have hdec : decodeFrameU16 bytes minV maxV rows cols =
        Except.error "length mismatch" := by
      simp only [decodeFrameU16]
      rw [if_pos hlen]
    exact ⟨⟨fun _ => Or.inl hlen, fun _ => ⟨_, hdec⟩⟩,
      fun hl => absurd hl hlen⟩

/-- **C8** witness: a minimal 1×1 well-formed frame decodes to its
frame id 5; its bytes are valid u8 values. -/
theorem c8_decode_error_behaviour_witness :
    (∀ b ∈ [0xEF, 0xBE, 5, 0, 7, 7], b < 256) ∧
      ∃ grid, decodeFrameU16 [0xEF, 0xBE, 5, 0, 7, 7] 0 100 1 1 =
        Except.ok (5, grid) := by
  refine ⟨by decide, ?_⟩
  obtain ⟨grid, hg⟩ :=
    (c8_decode_error_behaviour [0xEF, 0xBE, 5, 0, 7, 7] 0 100 1 1
      (by decide)).2 (by decide) (by decide)
  exact ⟨grid, by simpa using hg⟩

theorem getD_map_range {α : Type} (d : α) (F : ℕ → α) (n i : ℕ) (h : i < n) :
    ((List.range n).map F).getD i d = F i := by
  rw [List.getD_eq_getElem _ d (by simpa using h), List.getElem_map,
    List.getElem_range]

/-- Entry `(r, c)` of a decoded packed frame: the node value is clipped,
quantized, dequantized and rescaled. -/
theorem decodedAt_pack (m : ℕ → ℕ → ℚ) (minV maxV : ℚ) (fid r c : ℕ)
    (hr : r < numRows) (hc : c < numCols) :
    decodedAt (decodeFrameU16 (packMatrixToPayload m minV maxV fid)
        minV maxV numRows numCols) r c =
      rescaleValue (dequantize_u16 (packedSample (m r c) minV maxV)
        minV maxV) := by
  rw [decodeFrameU16_pack]
  simp only [decodedAt]
  rw [rescaleMatrix, dequantizedMatrix, List.map_map]
  rw [getD_map_range _ _ _ _ hr]
  simp only [Function.comp]
  rw [List.map_map, getD_map_range _ _ _ _ hc]
  rfl

/-- **C5**.  Omitted-node invariant: whatever the raw electrical input,
the calibration phase and the node multipliers, every omitted coordinate
decodes at the consumer boundary to the `-1` "no sensor" marker — a
value strictly below the consumer's minimum display bound, never a
numeric pressure value. -/
theorem c5_omitted_node_invariant (raw : ℕ → ℕ → ℚ) (frozen : Bool)
    (mult : ℕ → ℕ → ℚ) (fid r c : ℕ) (hr : r < numRows) (hc : c < numCols)
    (hom : isOmittedNode r c = true) :
    decodedAt (decodeFrameU16 (packMatrixToPayload
        (applyMultipliersAndClip frozen mult (forceOmittedNodes raw))
        MIN_RESISTANCE MAX_RESISTANCE fid) MIN_RESISTANCE MAX_RESISTANCE
        numRows numCols) r c = -1 ∧
      (-1 : ℚ) < outMin := by
  rw [decodedAt_pack _ _ _ _ _ _ hr hc]
  have hnode : applyMultipliersAndClip frozen mult (forceOmittedNodes raw) r c
      = -1 := by
    cases frozen with
    | false => simp [applyMultipliersAndClip, forceOmittedNodes, hom]
    | true => simp [applyMultipliersAndClip, hom]
  rw [hnode]
  constructor
  · have hq : packedSample (-1) MIN_RESISTANCE MAX_RESISTANCE = 0 := by
      norm_num [packedSample, packClip, quantize_u16, lroundQ,
        MIN_RESISTANCE, MAX_RESISTANCE]
    rw [hq]
    norm_num [dequantize_u16, rescaleValue, MIN_RESISTANCE, MAX_RESISTANCE]
  · norm_num [outMin]

/-- **C5** witness at the omitted corner `(0, 0)` with a large raw
reading, frozen calibration and unit multipliers. -/
theorem c5_omitted_node_invariant_witness :
    (0 < numRows) ∧ (0 < numCols) ∧ isOmittedNode 0 0 = true ∧
      (decodedAt (decodeFrameU16 (packMatrixToPayload
          (applyMultipliersAndClip true (fun _ _ => 1)
            (forceOmittedNodes fun _ _ => 12345))
          MIN_RESISTANCE MAX_RESISTANCE 7) MIN_RESISTANCE MAX_RESISTANCE
          numRows numCols) 0 0 = -1 ∧
        (-1 : ℚ) < outMin) :=
  ⟨by decide, by decide, by decide,
    c5_omitted_node_invariant (fun _ _ => 12345) true (fun _ _ => 1) 7 0 0
      (by decide) (by decide) (by decide)⟩

/-! ## End-to-end rescaling direction (reference scenario) -/

theorem c2_rest_value :
    decodedAt (decodeFrameU16 (packMatrixToPayload
        (applyMultipliersAndClip true (fun _ _ => MAX_RESISTANCE / 1000)
          (forceOmittedNodes fun _ _ => 1000))
        MIN_RESISTANCE MAX_RESISTANCE 0) MIN_RESISTANCE MAX_RESISTANCE
        numRows numCols) 2 2 = 100 := by
  rw [decodedAt_pack _ _ _ _ _ _ (by decide) (by decide)]
  have hom : isOmittedNode 2 2 = false := by decide
  have hnode : applyMultipliersAndClip true (fun _ _ => MAX_RESISTANCE / 1000)
      (forceOmittedNodes fun _ _ => 1000) 2 2 = 6000 := by
    norm_num [applyMultipliersAndClip, forceOmittedNodes, hom,
      MAX_RESISTANCE, MIN_RESISTANCE]
  rw [hnode]
  have hq : packedSample 6000 MIN_RESISTANCE MAX_RESISTANCE = 65535 := by
    norm_num [packedSample, packClip, quantize_u16, lroundQ,
      MIN_RESISTANCE, MAX_RESISTANCE]
    rfl
  rw [hq]
  have hd : dequantize_u16 65535 MIN_RESISTANCE MAX_RESISTANCE = 6000 := by
    norm_num [dequantize_u16, MIN_RESISTANCE, MAX_RESISTANCE]
  rw [hd]
  norm_num [rescaleValue, inMin, inMax, outMin, outMax, min_def, max_def]

theorem c2_pressed_value :
    decodedAt (decodeFrameU16 (packMatrixToPayload
        (applyMultipliersAndClip true (fun _ _ => MAX_RESISTANCE / 1000)
          (forceOmittedNodes fun _ _ => 500))
        MIN_RESISTANCE MAX_RESISTANCE 0) MIN_RESISTANCE MAX_RESISTANCE
        numRows numCols) 2 2 = 15073073800 / 196605000 := by
  rw [decodedAt_pack _ _ _ _ _ _ (by decide) (by decide)]
  have hom : isOmittedNode 2 2 = false := by decide
  have hnode : applyMultipliersAndClip true (fun _ _ => MAX_RESISTANCE / 1000)
      (forceOmittedNodes fun _ _ => 500) 2 2 = 3000 := by
    norm_num [applyMultipliersAndClip, forceOmittedNodes, hom,
      MAX_RESISTANCE, MIN_RESISTANCE]
  rw [hnode]
  have hq : packedSample 3000 MIN_RESISTANCE MAX_RESISTANCE = 32773 := by
    norm_num [packedSample, packClip, quantize_u16, lroundQ,
      MIN_RESISTANCE, MAX_RESISTANCE]
    rfl
  rw [hq]
  have hd : dequantize_u16 32773 MIN_RESISTANCE MAX_RESISTANCE =
      196605238 / 65535 := by
    norm_num [dequantize_u16, MIN_RESISTANCE, MAX_RESISTANCE]
  rw [hd]
  norm_num [rescaleValue, inMin, inMax, outMin, outMax, min_def, max_def]

/-- **C2** (amended).  In the reference end-to-end scenario (frozen
calibration with `resting_average = 1000` for the non-omitted node
`(2, 2)`, so `nodeMultiplier = MAX_RESISTANCE / 1000`), feeding raw
`1000` through calibration, quantization, decode and rescale yields the
consumer's **maximum** display bound `100` for that node, and feeding
raw `500` (lower resistance, higher pressure) yields a **strictly
smaller** rescaled value: the JS rescale maps resistance increasingly,
so more pressure means a smaller displayed value. -/
theorem c2_rescaling_direction :
    isOmittedNode 2 2 = false ∧
      decodedAt (decodeFrameU16 (packMatrixToPayload
          (applyMultipliersAndClip true (fun _ _ => MAX_RESISTANCE / 1000)
            (forceOmittedNodes fun _ _ => 1000))
          MIN_RESISTANCE MAX_RESISTANCE 0) MIN_RESISTANCE MAX_RESISTANCE
          numRows numCols) 2 2 = outMax ∧
      outMax = 100 ∧
      decodedAt (decodeFrameU16 (packMatrixToPayload
          (applyMultipliersAndClip true (fun _ _ => MAX_RESISTANCE / 1000)
            (forceOmittedNodes fun _ _ => 500))
          MIN_RESISTANCE MAX_RESISTANCE 0) MIN_RESISTANCE MAX_RESISTANCE
          numRows numCols) 2 2 <
        decodedAt (decodeFrameU16 (packMatrixToPayload
          (applyMultipliersAndClip true (fun _ _ => MAX_RESISTANCE / 1000)
            (forceOmittedNodes fun _ _ => 1000))
          MIN_RESISTANCE MAX_RESISTANCE 0) MIN_RESISTANCE MAX_RESISTANCE
          numRows numCols) 2 2 := by
  refine ⟨by decide, ?_, rfl, ?_⟩
  · rw [c2_rest_value]
    norm_num [outMax]
  · rw [c2_rest_value, c2_pressed_value]
    norm_num

/-- **C2** counterexample to the claim as stated: the rescaled value for
the resting raw input `1000` is the maximum display bound `100`, not the
minimum display bound `outMin = 0`, and the value for raw `500` is
strictly smaller, not strictly greater. -/
theorem c2_counterexample :
    ¬(decodedAt (decodeFrameU16 (packMatrixToPayload
          (applyMultipliersAndClip true (fun _ _ => MAX_RESISTANCE / 1000)
            (forceOmittedNodes fun _ _ => 1000))
          MIN_RESISTANCE MAX_RESISTANCE 0) MIN_RESISTANCE MAX_RESISTANCE
          numRows numCols) 2 2 = outMin ∧
        decodedAt (decodeFrameU16 (packMatrixToPayload
          (applyMultipliersAndClip true (fun _ _ => MAX_RESISTANCE / 1000)
            (forceOmittedNodes fun _ _ => 500))
          MIN_RESISTANCE MAX_RESISTANCE 0) MIN_RESISTANCE MAX_RESISTANCE
          numRows numCols) 2 2 >
          decodedAt (decodeFrameU16 (packMatrixToPayload
            (applyMultipliersAndClip true (fun _ _ => MAX_RESISTANCE / 1000)
              (forceOmittedNodes fun _ _ => 1000))
            MIN_RESISTANCE MAX_RESISTANCE 0) MIN_RESISTANCE MAX_RESISTANCE
            numRows numCols) 2 2) := by
  rw [c2_rest_value, c2_pressed_value]
  norm_num [outMin]

/-! ## Calibration convergence -/

theorem normalizeReading_of_valid {v : ℚ} (hv0 : 0 < v)
    (hvmax : v < MAX_RESISTANCE) : normalizeReading v = v := by
  unfold normalizeReading
  rw [if_neg (not_le.mpr hv0)]
  rw [if_neg (not_lt.mpr hvmax.le)]

/-- During warm-up, a non-omitted node fed the constant valid reading
`v` accumulates `k·v` over `k` counted samples, and the engine stays
unfrozen. -/
theorem calib_warm_inv (inputs : ℕ → ℕ → ℕ → ℚ) (r c : ℕ) (v : ℚ)
    (hr : r < numRows) (hc : c < numCols) (hom : isOmittedNode r c = false)
    (hv0 : 0 < v) (hvmax : v < MAX_RESISTANCE)
    (hconst : ∀ i < kRestingHistorySize, inputs i r c = v) :
    ∀ k, k ≤ kRestingHistorySize - 1 →
      (runCalib inputs k).restingFrozen = false ∧
      (runCalib inputs k).frameCount = k ∧
      (runCalib inputs k).restingSum r c = k * v ∧
      (runCalib inputs k).restingCount r c = k := by
  intro k
  induction k with
  | zero =>
      intro _
      refine ⟨rfl, rfl, by simp [runCalib, initCalibState], rfl⟩
  | succ k ih =>
      intro hk
      obtain ⟨hf, hfc, hsum, hcnt⟩ := ih (by omega)
      have hacc : calibAccumulates (inputs k) r c = true := by
        unfold calibAccumulates
        rw [hconst k (by simp only [kRestingHistorySize] at hk ⊢; omega), hom,
          normalizeReading_of_valid hv0 hvmax]
        simp [hvmax]
      have hstep : runCalib inputs (k + 1) =
          calibStep (runCalib inputs k) (inputs k) := rfl
      rw [hstep]
      unfold calibStep
      rw [if_neg (by rw [hf]; exact Bool.false_ne_true)]
      have hfc1 : (calibAccumulate (runCalib inputs k) (inputs k)).frameCount =
          k + 1 := by
        simp [calibAccumulate, hfc]
      rw [if_neg (by
        rw [hfc1]
        simp only [kRestingHistorySize] at hk ⊢
        omega)]
      refine ⟨by simp [calibAccumulate, hf], hfc1, ?_, ?_⟩
      · simp only [calibAccumulate]
        rw [if_pos ⟨hr, hc, hacc⟩, hsum,
          hconst k (by simp only [kRestingHistorySize] at hk ⊢; omega),
          normalizeReading_of_valid hv0 hvmax]
        push_cast
        ring
      · simp only [calibAccumulate]
        rw [if_pos ⟨hr, hc, hacc⟩, hcnt]

/-- **C6**.  Calibration convergence: a non-omitted node fed a constant
valid raw reading `v` on each of the first `W = kRestingHistorySize`
cycles leaves the engine unfrozen through cycle `W - 1`, freezes it at
exactly cycle `W` with `resting_average = v` (exact over `ℚ`) and
multiplier `MAX_RESISTANCE / v`, and the frozen-state calibrated output
for the same raw input `v` is exactly `MAX_RESISTANCE`. -/
theorem c6_calibration_convergence (inputs : ℕ → ℕ → ℕ → ℚ) (r c : ℕ)
    (v : ℚ) (hr : r < numRows) (hc : c < numCols)
    (hom : isOmittedNode r c = false) (hv0 : 0 < v)
    (hvmax : v < MAX_RESISTANCE)
    (hconst : ∀ i < kRestingHistorySize, inputs i r c = v) :
    (runCalib inputs (kRestingHistorySize - 1)).restingFrozen = false ∧
      (runCalib inputs kRestingHistorySize).restingFrozen = true ∧
      (runCalib inputs kRestingHistorySize).restingState r c = v ∧
      (runCalib inputs kRestingHistorySize).nodeMultiplier r c =
        MAX_RESISTANCE / v ∧
      (∀ m : ℕ → ℕ → ℚ, m r c = v →
        applyMultipliersAndClip
          (runCalib inputs kRestingHistorySize).restingFrozen
          (runCalib inputs kRestingHistorySize).nodeMultiplier m r c =
          MAX_RESISTANCE) := by
  obtain ⟨hf, hfc, hsum, hcnt⟩ :=
    calib_warm_inv inputs r c v hr hc hom hv0 hvmax hconst
      (kRestingHistorySize - 1) le_rfl
  have hacc : calibAccumulates (inputs (kRestingHistorySize - 1)) r c
      = true := by
    unfold calibAccumulates
    rw [hconst _ (by simp [kRestingHistorySize]), hom,
      normalizeReading_of_valid hv0 hvmax]
    simp [hvmax]
  have hsum1 : (calibAccumulate (runCalib inputs (kRestingHistorySize - 1))
      (inputs (kRestingHistorySize - 1))).restingSum r c = 100 * v := by
    simp only [calibAccumulate]
    rw [if_pos ⟨hr, hc, hacc⟩, hsum,
      hconst _ (by simp [kRestingHistorySize]),
      normalizeReading_of_valid hv0 hvmax]
    norm_num [kRestingHistorySize]
    ring
  have hcnt1 : (calibAccumulate (runCalib inputs (kRestingHistorySize - 1))
      (inputs (kRestingHistorySize - 1))).restingCount r c = 100 := by
    simp only [calibAccumulate]
    rw [if_pos ⟨hr, hc, hacc⟩, hcnt]
    decide
  have hfc1 : (calibAccumulate (runCalib inputs (kRestingHistorySize - 1))
      (inputs (kRestingHistorySize - 1))).frameCount = 100 := by
    simp only [calibAccumulate]
    rw [hfc]
    decide
  have h100 : runCalib inputs kRestingHistorySize =
      calibFreeze
        (calibAccumulate (runCalib inputs (kRestingHistorySize - 1))
          (inputs (kRestingHistorySize - 1)))
        (inputs (kRestingHistorySize - 1)) := by
    have hstep : runCalib inputs kRestingHistorySize =
        calibStep (runCalib inputs (kRestingHistorySize - 1))
          (inputs (kRestingHistorySize - 1)) := rfl
    rw [hstep]
    unfold calibStep
    rw [if_neg (by rw [hf]; exact Bool.false_ne_true),
      if_pos (by rw [hfc1]; simp [kRestingHistorySize])]
  have hrs : (if isOmittedNode r c then MAX_RESISTANCE
      else if 0 < (calibAccumulate
          (runCalib inputs (kRestingHistorySize - 1))
          (inputs (kRestingHistorySize - 1))).restingCount r c then
        (calibAccumulate (runCalib inputs (kRestingHistorySize - 1))
          (inputs (kRestingHistorySize - 1))).restingSum r c /
          ((calibAccumulate (runCalib inputs (kRestingHistorySize - 1))
            (inputs (kRestingHistorySize - 1))).restingCount r c : ℚ)
      else normalizeReading
        (inputs (kRestingHistorySize - 1) r c)) = v := by
    rw [if_neg (by rw [hom]; exact Bool.false_ne_true),
      if_pos (by rw [hcnt1]; norm_num), hsum1, hcnt1]
    push_cast
    exact mul_div_cancel_left₀ v (by norm_num)
  have hfrozen : (runCalib inputs kRestingHistorySize).restingFrozen = true := by
    rw [h100]
    rfl
  have hstate : (runCalib inputs kRestingHistorySize).restingState r c = v := by
    rw [h100]
    simp only [calibFreeze]
    rw [if_pos ⟨hr, hc⟩, hrs]
  have hmult : (runCalib inputs kRestingHistorySize).nodeMultiplier r c =
      MAX_RESISTANCE / v := by
    rw [h100]
    simp only [calibFreeze]
    rw [if_pos ⟨hr, hc⟩, if_neg (by rw [hom]; exact Bool.false_ne_true), hrs,
      if_pos hv0]
  refine ⟨hf, hfrozen, hstate, hmult, ?_⟩
  intro m hm
  rw [hfrozen]
  simp only [applyMultipliersAndClip, Bool.not_true, Bool.false_eq_true,
    if_false]
  rw [if_neg (by rw [hom]; exact Bool.false_ne_true), hm, hmult,
    if_neg (not_le.mpr hv0), if_neg (not_lt.mpr hvmax.le)]
  rw [show v * (MAX_RESISTANCE / v) = MAX_RESISTANCE by
    rw [mul_comm]
    exact div_mul_cancel₀ MAX_RESISTANCE (ne_of_gt hv0)]
  rw [if_neg (lt_irrefl MAX_RESISTANCE), if_neg (by norm_num [MAX_RESISTANCE,
    MIN_RESISTANCE])]

/-- **C6** witness: node `(2, 2)` fed the constant reading `1000` for
the full warm-up window. -/
theorem c6_calibration_convergence_witness :
    2 < numRows ∧ 2 < numCols ∧ isOmittedNode 2 2 = false ∧
      (0 : ℚ) < 1000 ∧ (1000 : ℚ) < MAX_RESISTANCE ∧
      ((runCalib (fun _ _ _ => 1000)
          (kRestingHistorySize - 1)).restingFrozen = false ∧
        (runCalib (fun _ _ _ => 1000) kRestingHistorySize).restingFrozen
          = true ∧
        (runCalib (fun _ _ _ => 1000) kRestingHistorySize).restingState 2 2
          = 1000 ∧
        (runCalib (fun _ _ _ => 1000) kRestingHistorySize).nodeMultiplier 2 2
          = MAX_RESISTANCE / 1000 ∧
        (∀ m : ℕ → ℕ → ℚ, m 2 2 = 1000 →
          applyMultipliersAndClip
            (runCalib (fun _ _ _ => 1000) kRestingHistorySize).restingFrozen
            (runCalib (fun _ _ _ => 1000) kRestingHistorySize).nodeMultiplier
            m 2 2 = MAX_RESISTANCE)) :=
  ⟨by decide, by decide, by decide, by norm_num,
    by norm_num [MAX_RESISTANCE],
    c6_calibration_convergence (fun _ _ _ => 1000) 2 2 1000 (by decide)
      (by decide) (by decide) (by norm_num) (by norm_num [MAX_RESISTANCE])
      (fun i _ => rfl)⟩
